import Mathlib

/-!
Shallow embedding of the GTF position-annotation subsystem of the
DFCI_Analyzer_Demo repository (`bin/annotator.py`, `bin/constant.py`,
`bin/utility.py`), together with proofs about it.

Python strings are modelled as `List Char`; the relevant Python string
operations (`split(sep)`, `rstrip(";")`, `strip()`, `"sep".join`, `str(int)`)
are given executable definitions that follow CPython semantics for the
ASCII inputs this program handles.  Fallible code is modelled with `Except`.
-/

namespace DFCI

abbrev Str := List Char

/-- Python exception kinds raised by the code paths modelled here:
`IndexError` from `field.split('"')[1]` on a field with no `"`, and
`ValueError` raised by `np.vectorize` when called on size-0 inputs with
`otypes` unset. -/
inductive PyError where
  | indexError : PyError
  | valueError : PyError
deriving DecidableEq, Repr

/-- CPython `str.split(sep)` worker for a one-character separator: `acc`
holds the current field reversed. -/
def splitOnAux (sep : Char) : Str → Str → List Str
  | [], acc => [acc.reverse]
  | c :: cs, acc =>
      if c = sep then acc.reverse :: splitOnAux sep cs []
      else splitOnAux sep cs (c :: acc)

/-- Python `s.split(sep)` for a one-character separator.
`"".split(';') == ['']` and separators at the ends produce empty fields,
exactly as in CPython. -/
def pySplit (sep : Char) (s : Str) : List Str :=
  splitOnAux sep s []

/-- Python `"sep".join(parts)`. -/
def pyJoin (sep : Str) : List Str → Str
  | [] => []
  | [part] => part
  | part :: parts => part ++ sep ++ pyJoin sep parts

/-- Python `s.rstrip(c)` for a one-character strip set: remove every
trailing occurrence of `c`. -/
def pyRstrip (c : Char) (s : Str) : Str :=
  (s.reverse.dropWhile (fun d => d = c)).reverse

/-- The six ASCII whitespace characters recognised by Python `str.strip()`:
space, tab, newline, carriage return, vertical tab, form feed. -/
def isPyWs (c : Char) : Bool :=
  c = ' ' || c = '\t' || c = '\n' || c = '\r' || c = '\x0b' || c = '\x0c'

/-- Python `s.strip()`: drop leading and trailing whitespace. -/
def pyStrip (s : Str) : Str :=
  ((s.dropWhile isPyWs).reverse.dropWhile isPyWs).reverse

/-- The decimal digit characters used by Python `str(int)`. -/
def digit_char (d : Nat) : Char :=
  if d = 0 then '0' else if d = 1 then '1' else if d = 2 then '2'
  else if d = 3 then '3' else if d = 4 then '4' else if d = 5 then '5'
  else if d = 6 then '6' else if d = 7 then '7' else if d = 8 then '8'
  else '9'

/-- Digit expansion of a natural number, most significant digit first.
The first argument is fuel; `natToDigits` always supplies `n + 1`, which
strictly exceeds the number of division-by-ten steps needed. -/
def natToDigitsAux : Nat → Nat → Str → Str
  | 0, _, acc => acc
  | fuel + 1, n, acc =>
      if n = 0 then acc
      else natToDigitsAux fuel (n / 10) (digit_char (n % 10) :: acc)

/-- Decimal digits of `n`, as in Python `str` on a non-negative int. -/
def natToDigits (n : Nat) : Str :=
  if n = 0 then ['0'] else natToDigitsAux (n + 1) n []

/-- Python `str(i)` for an int. -/
def intToStr (i : Int) : Str :=
  if i < 0 then '-' :: natToDigits (-i).toNat else natToDigits i.toNat

/-! ## `bin/constant.py` -/

/-- `constant.py`: the fixed 9-column GTF schema. -/
def gtf_columns : List Str :=
  ["chr".toList, "source".toList, "type".toList, "start".toList, "end".toList,
   "score".toList, "strand".toList, "phase".toList, "attributes".toList]

/-- `constant.py`: the five recognized attribute keys, in canonical output
order.  Note the trailing space inside `"exon_number "`, verbatim from the
source. -/
def annotation_fields : List Str :=
  ["gene_id".toList, "transcript_id".toList, "exon_number ".toList,
   "exon_id".toList, "gene_name".toList]

/-! ## Data model -/

/-- One row of the knowledge (GTF) table, following `gtf_columns`. -/
structure Feature where
  chr : Str
  source : Str
  type : Str
  start : Int
  «end» : Int
  score : Str
  strand : Str
  phase : Str
  attributes : Str
deriving DecidableEq, Repr

/-- One row of the input positions table (`names=['chromosome','position']`). -/
structure QueryPosition where
  chromosome : Str
  position : Int
deriving DecidableEq, Repr

/-! ## `bin/utility.py` -/

/-- The `@log` decorator from `utility.py`: it runs the wrapped call,
logs any exception and re-raises it unchanged, so both the success value
and the error pass through untouched. -/
def log {α : Type} (result : Except PyError α) : Except PyError α :=
  result

/-- Error-propagating traversal of a list, first failure wins: this is how
a Python loop / pandas `apply` / `np.vectorize` over elements behaves when
the applied function can raise. -/
def exceptMapM {α β : Type} (f : α → Except PyError β) : List α → Except PyError (List β)
  | [] => .ok []
  | a :: as =>
      match f a with
      | .error e => .error e
      | .ok b =>
          match exceptMapM f as with
          | .error e => .error e
          | .ok bs => .ok (b :: bs)

/-! ## `bin/annotator.py` -/

/-- The loop body of `extract_annotation`:
`annotation_dict[field.split('"')[0].strip()] = field.split('"')[1]` over
each field, with `IndexError` when a field has no `"`.  The dict is an
association list where the most recent assignment is at the head, so a
front-first lookup sees exactly what the Python dict would. -/
def buildDict : List (Str × Str) → List Str → Except PyError (List (Str × Str))
  | annotation_dict, [] => .ok annotation_dict
  | annotation_dict, field :: fields =>
      match pySplit '"' field with
      | k :: v :: _ => buildDict ((pyStrip k, v) :: annotation_dict) fields
      | _ => .error .indexError

/-- Lookup in the `defaultdict(lambda: ".")`: the most recent assignment
to a key wins; a missing key yields the placeholder `"."`. -/
def lookupD (annotation_dict : List (Str × Str)) (key : Str) : Str :=
  match annotation_dict.find? (fun p => decide (p.1 = key)) with
  | some p => p.2
  | none => ['.']

/-- `GTFAnnotation.extract_annotation`: strip trailing `;`, split on `;`,
build the key/value dict, and project the five recognized keys in
canonical order, tab-joined. -/
def extract_annotation (attributes_field : Str) : Except PyError Str :=
  match buildDict [] (pySplit ';' (pyRstrip ';' attributes_field)) with
  | .error e => .error e
  | .ok annotation_dict =>
      .ok (pyJoin ['\t'] ( annotation_fields.map (fun key => lookupD annotation_dict key)))

/-- The row filter of `annotate_position`:
`(chr == chromosome) & (start <= position) & (end >= position)`. -/
def feature_overlaps (f : Feature) (chromosome : Str) (position : Int) : Bool :=
  decide (f.chr = chromosome) && decide (f.start ≤ position) && decide (f.«end» ≥ position)

/-- Number of knowledge-table rows overlapping a query position. -/
def overlap_count (knowledge_df : List Feature) (chromosome : Str) (position : Int) : Nat :=
  (knowledge_df.filter (fun f => feature_overlaps f chromosome position)).length

/-- The no-match row of `annotate_position`:
`str(chromosome) + "\t" + str(position) + "\t" + "\t".join(["." for i in annotation_fields])`. -/
def fallback_row (chromosome : Str) (position : Int) : Str :=
  chromosome ++ ['\t'] ++ intToStr position ++ ['\t'] ++
    pyJoin ['\t'] ( annotation_fields.map (fun _ => ['.']))

/-- `GTFAnnotation.annotate_position`: filter the knowledge table to the
overlapping rows, extract each one's projection, prefix
`chromosome\tposition\t`, and join the rows with newlines; if no row
overlaps, return the single fallback row. -/
def annotate_position (knowledge_df : List Feature) (chromosome : Str) (position : Int) :
    Except PyError Str :=
  match exceptMapM (fun f => extract_annotation f.attributes)
      (knowledge_df.filter (fun f => feature_overlaps f chromosome position)) with
  | .error e => .error e
  | .ok annotation_rows =>
      if annotation_rows.isEmpty then
        .ok (fallback_row chromosome position)
      else
        .ok (pyJoin ['\n'] (annotation_rows.map
          (fun row => chromosome ++ ['\t'] ++ intToStr position ++ ['\t'] ++ row)))

/-- `GTFAnnotation.execute_annotation`: annotate every row of one
partition via `np.vectorize(self.annotate_position)`.  `np.vectorize`
raises `ValueError` on size-0 inputs because `otypes` is unset, so an
empty partition is an error. -/
def execute_annotation (knowledge_df : List Feature) (dataframe : List QueryPosition) :
    Except PyError (List (QueryPosition × Str)) :=
  if dataframe.isEmpty then .error .valueError
  else
    exceptMapM (fun q =>
      match annotate_position knowledge_df q.chromosome q.position with
      | .error e => .error e
      | .ok a => .ok (q, a)) dataframe

/-- `annotate_all_positions` line 121: `num_cpus = max(self.num_cpus - 1, 1)`;
this is both the `Pool` size passed to `parallel_process` and the number of
partitions requested from `np.array_split`. -/
def pool_size (num_cpus : Int) : Int :=
  max (num_cpus - 1) 1

/-- `np.array_split` worker: produce `k` contiguous parts where the first
`r` parts have `q + 1` elements and the rest have `q`. -/
def array_split_aux {α : Type} : Nat → Nat → Nat → List α → List (List α)
  | 0, _, _, _ => []
  | k + 1, q, 0, xs => xs.take q :: array_split_aux k q 0 (xs.drop q)
  | k + 1, q, r + 1, xs => xs.take (q + 1) :: array_split_aux k q r (xs.drop (q + 1))

/-- `np.array_split(l, n)`: split `l` into `n` contiguous parts whose sizes
differ by at most one (`l % n` parts of size `l / n + 1`, then parts of
size `l / n`). -/
def array_split {α : Type} (l : List α) (n : Nat) : List (List α) :=
  array_split_aux n (l.length / n) (l.length % n) l

/-- The partitions `sub_df` built by `annotate_all_positions`:
`np.array_split(self.input_positions_df, num_cpus)`. -/
def sub_dfs (input_positions_df : List QueryPosition) (num_cpus : Int) :
    List (List QueryPosition) :=
  array_split input_positions_df (pool_size num_cpus).toNat

/-- The header line written by `annotate_all_positions`:
`"\t".join(["chr", "pos"] + annotation_fields)`. -/
def output_header : Str :=
  pyJoin ['\t'] (["chr".toList, "pos".toList] ++ annotation_fields)

/-- The file-writing loop of `annotate_all_positions`: the header line,
then for every annotated row each segment of
`annotation_row['annotation'].strip().split("\n")` on its own line. -/
def writeOutput (annotated_df : List (QueryPosition × Str)) : List Str :=
  output_header :: (annotated_df.map (fun row => pySplit '\n' (pyStrip row.2))).flatten

/-- `GTFAnnotation.annotate_all_positions`: partition the input positions,
run ` execute_annotation` on every partition (`parallel_process` with
`pool.imap` returns the per-partition results in submission order),
concatenate, and write header plus data lines.  The result is the list of
lines of the output file. -/
def annotate_all_positions (knowledge_df : List Feature)
    (input_positions_df : List QueryPosition) (num_cpus : Int) :
    Except PyError (List Str) :=
  match exceptMapM ( execute_annotation knowledge_df) (sub_dfs input_positions_df num_cpus) with
  | .error e => .error e
  | .ok results => .ok ( writeOutput results.flatten)

end DFCI

/-! ## Basic lemmas about the Python string helpers -/

namespace DFCI

theorem splitOnAux_append_no_sep (sep : Char) (l : Str) (t acc : Str) (h : sep ∉ l) :
    splitOnAux sep (l ++ t) acc = splitOnAux sep t (l.reverse ++ acc) := by
  induction l generalizing acc with
  | nil => simp
  | cons c cs ih =>
      have hc : ¬ c = sep := by
        intro hcc
        exact h (hcc ▸ List.mem_cons_self c cs)
      have hcs : sep ∉ cs := fun hm => h (List.mem_cons_of_mem _ hm)
      simp only [List.cons_append, splitOnAux, if_neg hc, List.append_eq]
      rw [ih (c :: acc) hcs]
      simp

theorem splitOnAux_cons_sep (sep : Char) (t acc : Str) :
    splitOnAux sep (sep :: t) acc = acc.reverse :: splitOnAux sep t [] := by
  simp [splitOnAux]

theorem pySplit_no_sep (sep : Char) (s : Str) (h : sep ∉ s) : pySplit sep s = [s] := by
  have := splitOnAux_append_no_sep sep s [] [] h
  simpa [pySplit, splitOnAux] using this

theorem pySplit_append_sep (sep : Char) (a t : Str) (h : sep ∉ a) :
    pySplit sep (a ++ sep :: t) = a :: pySplit sep t := by
  have := splitOnAux_append_no_sep sep a (sep :: t) [] h
  simpa [pySplit, splitOnAux_cons_sep] using this

theorem pySplit_ne_nil (sep : Char) (s : Str) : pySplit sep s ≠ [] := by
  have : ∀ u acc, splitOnAux sep u acc ≠ [] := by
    intro u
    induction u with
    | nil => intro acc; simp [splitOnAux]
    | cons c cs ih =>
        intro acc
        by_cases hc : c = sep
        · simp [splitOnAux, hc]
        · simpa [splitOnAux, hc] using ih (c :: acc)
  exact this s []

theorem pyJoin_cons (sep : Str) (a : Str) (parts : List Str) (h : parts ≠ []) :
    pyJoin sep (a :: parts) = a ++ sep ++ pyJoin sep parts := by
  cases parts with
  | nil => exact absurd rfl h
  | cons b bs => rfl

theorem pySplit_pyJoin (sep : Char) (parts : List Str) (hne : parts ≠ [])
    (h : ∀ p ∈ parts, sep ∉ p) :
    pySplit sep (pyJoin [sep] parts) = parts := by
  induction parts with
  | nil => exact absurd rfl hne
  | cons a ps ih =>
      cases ps with
      | nil => simpa [pyJoin] using pySplit_no_sep sep a (h a (List.mem_cons_self a []))
      | cons b bs =>
          have hjoin : pyJoin [sep] (a :: b :: bs) = a ++ sep :: pyJoin [sep] (b :: bs) := by
            simp [pyJoin_cons]
          rw [hjoin, pySplit_append_sep sep a _ (h a (List.mem_cons_self a _)),
            ih (by simp) (fun p hp => h p (List.mem_cons_of_mem _ hp))]

theorem mem_splitOnAux (sep : Char) (s : Str) :
    ∀ acc part, part ∈ splitOnAux sep s acc → ∀ x ∈ part, x ∈ s ∨ x ∈ acc := by
  induction s with
  | nil =>
      intro acc part hp x hx
      simp only [splitOnAux, List.mem_singleton] at hp
      subst hp
      right
      simpa using hx
  | cons c cs ih =>
      intro acc part hp x hx
      by_cases hc : c = sep
      · subst hc
        rw [splitOnAux_cons_sep] at hp
        rcases List.mem_cons.mp hp with h1 | h1
        · subst h1
          right
          simpa using hx
        · rcases ih [] part h1 x hx with h2 | h2
          · exact .inl (List.mem_cons_of_mem _ h2)
          · simp at h2
      · simp only [splitOnAux, if_neg hc] at hp
        rcases ih (c :: acc) part hp x hx with h2 | h2
        · exact .inl (List.mem_cons_of_mem _ h2)
        · rcases List.mem_cons.mp h2 with h3 | h3
          · exact .inl (h3 ▸ List.mem_cons_self c cs)
          · exact .inr h3

theorem mem_pySplit (sep : Char) (s part : Str) (hp : part ∈ pySplit sep s) :
    ∀ x ∈ part, x ∈ s := by
  intro x hx
  rcases mem_splitOnAux sep s [] part hp x hx with h | h
  · exact h
  · simp at h

theorem mem_pyRstrip (c : Char) (s : Str) (x : Char) (hx : x ∈ pyRstrip c s) : x ∈ s := by
  unfold pyRstrip at hx
  rw [List.mem_reverse] at hx
  have := (List.dropWhile_sublist (fun d => decide (d = c))).mem hx
  rwa [List.mem_reverse] at this

theorem mem_pyStrip (s : Str) (x : Char) (hx : x ∈ pyStrip s) : x ∈ s := by
  unfold pyStrip at hx
  rw [List.mem_reverse] at hx
  have h1 := (List.dropWhile_sublist isPyWs).mem hx
  rw [List.mem_reverse] at h1
  exact (List.dropWhile_sublist isPyWs).mem h1

theorem mem_pyJoin (sep : Str) (parts : List Str) (x : Char) (hx : x ∈ pyJoin sep parts) :
    x ∈ sep ∨ ∃ part ∈ parts, x ∈ part := by
  induction parts with
  | nil => simp [pyJoin] at hx
  | cons a ps ih =>
      cases ps with
      | nil =>
          right
          exact ⟨a, List.mem_cons_self a [], by simpa [pyJoin] using hx⟩
      | cons b bs =>
          rw [pyJoin_cons sep a (b :: bs) (by simp)] at hx
          simp only [List.mem_append] at hx
          rcases hx with (hx | hx) | hx
          · exact .inr ⟨a, List.mem_cons_self a _, hx⟩
          · exact .inl hx
          · rcases ih hx with h | ⟨p, hp, hxp⟩
            · exact .inl h
            · exact .inr ⟨p, List.mem_cons_of_mem _ hp, hxp⟩

theorem dropWhile_append_of_exists {p : Char → Bool} (l t : Str)
    (h : ∃ x ∈ l, p x = false) :
    (l ++ t).dropWhile p = l.dropWhile p ++ t := by
  induction l with
  | nil => simp at h
  | cons a as ih =>
      by_cases ha : p a
      · rcases h with ⟨x, hx, hpx⟩
        rcases List.mem_cons.mp hx with h1 | h1
        · rw [h1] at hpx; simp [ha] at hpx
        · simp only [List.cons_append, List.dropWhile_cons, ha, if_true]
          exact ih ⟨x, h1, hpx⟩
      · simp [List.dropWhile_cons, ha]

theorem exists_not_of_dropWhile {p : Char → Bool} (l : Str)
    (h : ∃ x ∈ l, p x = false) :
    ∃ x ∈ l.dropWhile p, p x = false := by
  induction l with
  | nil => simp at h
  | cons a as ih =>
      by_cases ha : p a
      · rcases h with ⟨x, hx, hpx⟩
        rcases List.mem_cons.mp hx with h1 | h1
        · rw [h1] at hpx; simp [ha] at hpx
        · simpa [List.dropWhile_cons, ha] using ih ⟨x, h1, hpx⟩
      · exact ⟨a, by simp [List.dropWhile_cons, ha], by simpa using ha⟩

theorem dropWhile_head_false {p : Char → Bool} (l : Str) (a : Char) (t : Str)
    (h : l.dropWhile p = a :: t) : p a = false := by
  induction l with
  | nil => simp at h
  | cons b bs ih =>
      by_cases hb : p b
      · exact ih (by simpa [List.dropWhile_cons, hb] using h)
      · rw [List.dropWhile_cons, if_neg (by simpa using hb)] at h
        cases h
        simpa using hb

/-! ## Digit strings contain no whitespace and no newline -/

theorem digit_char_not_ws (d : Nat) : isPyWs (digit_char d) = false := by
  unfold digit_char
  repeat' split
  all_goals decide

theorem mem_acc_natToDigitsAux (fuel : Nat) :
    ∀ (n : Nat) (acc : Str) (x : Char), x ∈ acc → x ∈ natToDigitsAux fuel n acc := by
  induction fuel with
  | zero => intro n acc x hx; simpa [natToDigitsAux] using hx
  | succ fuel ih =>
      intro n acc x hx
      by_cases hn : n = 0
      · simpa [natToDigitsAux, hn] using hx
      · simp only [natToDigitsAux, if_neg hn]
        exact ih _ _ _ (List.mem_cons_of_mem _ hx)

theorem mem_natToDigitsAux (fuel : Nat) :
    ∀ (n : Nat) (acc : Str) (x : Char), x ∈ natToDigitsAux fuel n acc →
      (∃ d, x = digit_char d) ∨ x ∈ acc := by
  induction fuel with
  | zero => intro n acc x hx; right; simpa [natToDigitsAux] using hx
  | succ fuel ih =>
      intro n acc x hx
      by_cases hn : n = 0
      · right; simpa [natToDigitsAux, hn] using hx
      · simp only [natToDigitsAux, if_neg hn] at hx
        rcases ih _ _ _ hx with h | h
        · exact .inl h
        · rcases List.mem_cons.mp h with h1 | h1
          · exact .inl ⟨n % 10, h1⟩
          · exact .inr h1

theorem natToDigits_not_ws (n : Nat) (x : Char) (hx : x ∈ natToDigits n) :
    isPyWs x = false := by
  unfold natToDigits at hx
  by_cases hn : n = 0
  · rw [if_pos hn] at hx
    rcases List.mem_singleton.mp hx with h
    subst h; decide
  · rw [if_neg hn] at hx
    rcases mem_natToDigitsAux _ _ _ _ hx with ⟨d, hd⟩ | h
    · exact hd ▸ digit_char_not_ws d
    · simp at h

theorem natToDigits_exists_not_ws (n : Nat) :
    ∃ x ∈ natToDigits n, isPyWs x = false := by
  by_cases hn : n = 0
  · exact ⟨'0', by simp [natToDigits, hn], by decide⟩
  · refine ⟨digit_char (n % 10), ?_, digit_char_not_ws _⟩
    unfold natToDigits
    rw [if_neg hn]
    simp only [natToDigitsAux, if_neg hn]
    exact mem_acc_natToDigitsAux _ _ _ _ (List.mem_cons_self _ _)

theorem intToStr_not_ws (i : Int) (x : Char) (hx : x ∈ intToStr i) : isPyWs x = false := by
  unfold intToStr at hx
  by_cases hi : i < 0
  · rw [if_pos hi] at hx
    rcases List.mem_cons.mp hx with h | h
    · subst h; decide
    · exact natToDigits_not_ws _ _ h
  · rw [if_neg hi] at hx
    exact natToDigits_not_ws _ _ hx

theorem intToStr_exists_not_ws (i : Int) : ∃ x ∈ intToStr i, isPyWs x = false := by
  unfold intToStr
  by_cases hi : i < 0
  · rcases natToDigits_exists_not_ws (-i).toNat with ⟨x, hx, hw⟩
    exact ⟨x, by rw [if_pos hi]; exact List.mem_cons_of_mem _ hx, hw⟩
  · rcases natToDigits_exists_not_ws i.toNat with ⟨x, hx, hw⟩
    exact ⟨x, by rw [if_neg hi]; exact hx, hw⟩

theorem intToStr_no_newline (i : Int) : '\n' ∉ intToStr i := by
  intro h
  exact absurd (intToStr_not_ws i '\n' h) (by decide)

/-! ## Stripping and splitting a newline-join of rows -/

theorem pyJoin_concat (sep : Str) (xs : List Str) (y : Str) (h : xs ≠ []) :
    pyJoin sep (xs ++ [y]) = pyJoin sep xs ++ sep ++ y := by
  induction xs with
  | nil => exact absurd rfl h
  | cons a as ih =>
      cases as with
      | nil => simp [pyJoin]
      | cons b bs =>
          rw [List.cons_append, pyJoin_cons sep a ((b :: bs) ++ [y]) (by simp),
            ih (by simp), pyJoin_cons sep a (b :: bs) (by simp)]
          simp [List.append_assoc]

theorem reverse_pyJoin (c : Char) (parts : List Str) :
    (pyJoin [c] parts).reverse = pyJoin [c] ((parts.map List.reverse).reverse) := by
  induction parts with
  | nil => simp [pyJoin]
  | cons a as ih =>
      cases as with
      | nil => simp [pyJoin]
      | cons b bs =>
          have hR : ((b :: bs).map List.reverse).reverse ≠ ([] : List Str) := by simp
          have h1 : (pyJoin [c] (a :: b :: bs)).reverse
              = (pyJoin [c] (b :: bs)).reverse ++ [c] ++ a.reverse := by
            rw [pyJoin_cons [c] a (b :: bs) (by simp)]
            simp
          have h2 : ((a :: b :: bs).map List.reverse).reverse
              = ((b :: bs).map List.reverse).reverse ++ [a.reverse] := by simp
          rw [h1, h2, pyJoin_concat [c] _ _ hR, ih]

theorem dropWhile_pyJoin_head (c : Char) (r : Str) (rest : List Str)
    (h : ∃ x ∈ r, isPyWs x = false) :
    (pyJoin [c] (r :: rest)).dropWhile isPyWs
      = pyJoin [c] (r.dropWhile isPyWs :: rest) := by
  cases rest with
  | nil => simp [pyJoin]
  | cons b bs =>
      rw [pyJoin_cons [c] r (b :: bs) (by simp),
        pyJoin_cons [c] (r.dropWhile isPyWs) (b :: bs) (by simp),
        List.append_assoc, List.append_assoc, dropWhile_append_of_exists r _ h]

theorem dropWhile_pyJoin_spec (c : Char) (rows : List Str) (hne : rows ≠ [])
    (h1 : ∀ r ∈ rows, c ∉ r)
    (h2 : ∀ r ∈ rows, ∃ x ∈ r, isPyWs x = false) :
    ∃ rows2, rows2.length = rows.length ∧ (∀ r ∈ rows2, c ∉ r) ∧
      (∀ r ∈ rows2, ∃ x ∈ r, isPyWs x = false) ∧
      (pyJoin [c] rows).dropWhile isPyWs = pyJoin [c] rows2 := by
  cases rows with
  | nil => exact absurd rfl hne
  | cons r rest =>
      refine ⟨r.dropWhile isPyWs :: rest, by simp, ?_, ?_,
        dropWhile_pyJoin_head c r rest (h2 r (List.mem_cons_self r rest))⟩
      · intro s hs
        rcases List.mem_cons.mp hs with h | h
        · subst h
          intro hc
          exact h1 r (List.mem_cons_self r rest) ((List.dropWhile_sublist isPyWs).mem hc)
        · exact h1 s (List.mem_cons_of_mem _ h)
      · intro s hs
        rcases List.mem_cons.mp hs with h | h
        · subst h
          exact exists_not_of_dropWhile r (h2 r (List.mem_cons_self r rest))
        · exact h2 s (List.mem_cons_of_mem _ h)

theorem pyStrip_pyJoin_spec (c : Char) (rows : List Str) (hne : rows ≠ [])
    (h1 : ∀ r ∈ rows, c ∉ r)
    (h2 : ∀ r ∈ rows, ∃ x ∈ r, isPyWs x = false) :
    ∃ rows2, rows2.length = rows.length ∧ (∀ r ∈ rows2, c ∉ r) ∧
      pyStrip (pyJoin [c] rows) = pyJoin [c] rows2 := by
  obtain ⟨rowsA, hlenA, h1A, h2A, heqA⟩ := dropWhile_pyJoin_spec c rows hne h1 h2
  have hneA : rowsA ≠ [] := by
    intro h
    rw [h] at hlenA
    exact hne (List.length_eq_zero.mp hlenA.symm)
  have hrevprops : ∀ r ∈ (rowsA.map List.reverse).reverse, c ∉ r := by
    intro r hr
    rw [List.mem_reverse, List.mem_map] at hr
    rcases hr with ⟨r0, hr0, hrev⟩
    subst hrev
    rw [List.mem_reverse]
    exact h1A r0 hr0
  have hrevwit : ∀ r ∈ (rowsA.map List.reverse).reverse, ∃ x ∈ r, isPyWs x = false := by
    intro r hr
    rw [List.mem_reverse, List.mem_map] at hr
    rcases hr with ⟨r0, hr0, hrev⟩
    subst hrev
    rcases h2A r0 hr0 with ⟨x, hx, hw⟩
    exact ⟨x, List.mem_reverse.mpr hx, hw⟩
  obtain ⟨rowsC, hlenC, h1C, _, heqC⟩ :=
    dropWhile_pyJoin_spec c ((rowsA.map List.reverse).reverse) (by simpa using hneA)
      hrevprops hrevwit
  refine ⟨(rowsC.map List.reverse).reverse, ?_, ?_, ?_⟩
  · simp only [List.length_reverse, List.length_map]
    rw [hlenC]
    simpa using hlenA
  · intro r hr
    rw [List.mem_reverse, List.mem_map] at hr
    rcases hr with ⟨r0, hr0, hrev⟩
    subst hrev
    rw [List.mem_reverse]
    exact h1C r0 hr0
  · unfold pyStrip
    rw [heqA, reverse_pyJoin, heqC, reverse_pyJoin]

theorem length_pySplit_pyStrip_pyJoin (rows : List Str) (hne : rows ≠ [])
    (h1 : ∀ r ∈ rows, '\n' ∉ r) (h2 : ∀ r ∈ rows, ∃ x ∈ r, isPyWs x = false) :
    (pySplit '\n' (pyStrip (pyJoin ['\n'] rows))).length = rows.length := by
  obtain ⟨rows2, hlen, hprop, heq⟩ := pyStrip_pyJoin_spec '\n' rows hne h1 h2
  have hne2 : rows2 ≠ [] := by
    intro h
    rw [h] at hlen
    exact hne (List.length_eq_zero.mp hlen.symm)
  rw [heq, pySplit_pyJoin '\n' rows2 hne2 hprop, hlen]

/-! ## Lemmas about `exceptMapM` -/

theorem exceptMapM_nil {α β : Type} (f : α → Except PyError β) :
    exceptMapM f [] = .ok [] := rfl

theorem exceptMapM_ok_length {α β : Type} (f : α → Except PyError β) :
    ∀ (l : List α) (bs : List β), exceptMapM f l = .ok bs → bs.length = l.length := by
  intro l
  induction l with
  | nil =>
      intro bs h
      simp only [exceptMapM, Except.ok.injEq] at h
      rw [← h]
      rfl
  | cons a as ih =>
      intro bs h
      simp only [exceptMapM] at h
      cases hfa : f a with
      | error e => rw [hfa] at h; simp at h
      | ok b =>
          rw [hfa] at h
          cases hrest : exceptMapM f as with
          | error e => rw [hrest] at h; simp at h
          | ok bs1 =>
              rw [hrest] at h
              simp only [Except.ok.injEq] at h
              rw [← h]
              simp [ih bs1 hrest]

theorem exceptMapM_ok_mem {α β : Type} (f : α → Except PyError β) :
    ∀ (l : List α) (bs : List β), exceptMapM f l = .ok bs →
      ∀ b ∈ bs, ∃ a ∈ l, f a = .ok b := by
  intro l
  induction l with
  | nil =>
      intro bs h b hb
      simp only [exceptMapM, Except.ok.injEq] at h
      rw [← h] at hb
      simp at hb
  | cons a as ih =>
      intro bs h b hb
      simp only [exceptMapM] at h
      cases hfa : f a with
      | error e => rw [hfa] at h; simp at h
      | ok b1 =>
          rw [hfa] at h
          cases hrest : exceptMapM f as with
          | error e => rw [hrest] at h; simp at h
          | ok bs1 =>
              rw [hrest] at h
              simp only [Except.ok.injEq] at h
              rw [← h] at hb
              rcases List.mem_cons.mp hb with h1 | h1
              · exact ⟨a, List.mem_cons_self a as, h1 ▸ hfa⟩
              · rcases ih bs1 hrest b h1 with ⟨a1, ha1, hfa1⟩
                exact ⟨a1, List.mem_cons_of_mem _ ha1, hfa1⟩

theorem exceptMapM_append_ok {α β : Type} (f : α → Except PyError β) :
    ∀ (xs ys : List α) (r : List β), exceptMapM f (xs ++ ys) = .ok r →
      ∃ r1 r2, exceptMapM f xs = .ok r1 ∧ exceptMapM f ys = .ok r2 ∧ r = r1 ++ r2 := by
  intro xs
  induction xs with
  | nil =>
      intro ys r h
      exact ⟨[], r, rfl, by simpa using h, by simp⟩
  | cons a as ih =>
      intro ys r h
      rw [List.cons_append] at h
      simp only [exceptMapM] at h
      cases hfa : f a with
      | error e => rw [hfa] at h; simp at h
      | ok b =>
          rw [hfa] at h
          cases hrest : exceptMapM f (as ++ ys) with
          | error e => rw [hrest] at h; simp at h
          | ok bs1 =>
              rw [hrest] at h
              simp only [Except.ok.injEq] at h
              rcases ih ys bs1 hrest with ⟨r1, r2, h1, h2, h3⟩
              refine ⟨b :: r1, r2, ?_, h2, by rw [← h, h3]; rfl⟩
              simp only [exceptMapM, hfa, h1]

/-! ## Lemmas about `array_split` -/

theorem array_split_aux_length {α : Type} :
    ∀ (k q r : Nat) (xs : List α), (array_split_aux k q r xs).length = k := by
  intro k
  induction k with
  | zero => intro q r xs; rfl
  | succ k ih =>
      intro q r xs
      cases r with
      | zero => simp [array_split_aux, ih]
      | succ r => simp [array_split_aux, ih]

theorem array_split_length {α : Type} (l : List α) (n : Nat) :
    (array_split l n).length = n :=
  array_split_aux_length n (l.length / n) (l.length % n) l

theorem array_split_aux_flatten {α : Type} :
    ∀ (k q r : Nat) (xs : List α), r ≤ k →
      (array_split_aux k q r xs).flatten = xs.take (k * q + r) := by
  intro k
  induction k with
  | zero =>
      intro q r xs hr
      have hz : r = 0 := Nat.le_zero.mp hr
      simp [array_split_aux, hz]
  | succ k ih =>
      intro q r xs hr
      cases r with
      | zero =>
          rw [show array_split_aux (k + 1) q 0 xs
              = xs.take q :: array_split_aux k q 0 (xs.drop q) from rfl,
            List.flatten_cons, ih q 0 (xs.drop q) (Nat.zero_le k),
            show (k + 1) * q + 0 = q + (k * q + 0) by rw [Nat.succ_mul]; omega]
          exact (List.take_add _ _ _).symm
      | succ r =>
          rw [show array_split_aux (k + 1) q (r + 1) xs
              = xs.take (q + 1) :: array_split_aux k q r (xs.drop (q + 1)) from rfl,
            List.flatten_cons, ih q r (xs.drop (q + 1)) (by omega),
            show (k + 1) * q + (r + 1) = (q + 1) + (k * q + r) by rw [Nat.succ_mul]; omega]
          exact (List.take_add _ _ _).symm

theorem array_split_flatten {α : Type} (l : List α) (n : Nat) (hn : 1 ≤ n) :
    (array_split l n).flatten = l := by
  unfold array_split
  have hmod : l.length % n < n := Nat.mod_lt _ hn
  rw [array_split_aux_flatten n (l.length / n) (l.length % n) l (le_of_lt hmod),
    show n * (l.length / n) + l.length % n = l.length from Nat.div_add_mod l.length n]
  exact List.take_length l

theorem array_split_aux_ne_nil {α : Type} :
    ∀ (k q r : Nat) (xs : List α), r ≤ k → 1 ≤ q → xs.length = k * q + r →
      ∀ part ∈ array_split_aux k q r xs, part ≠ [] := by
  intro k
  induction k with
  | zero => intro q r xs _ _ _ part hp; simp [array_split_aux] at hp
  | succ k ih =>
      intro q r xs hr hq hlen part hp
      have hmulge : k * q + q = (k + 1) * q := (Nat.succ_mul k q).symm
      cases r with
      | zero =>
          rw [show array_split_aux (k + 1) q 0 xs
              = xs.take q :: array_split_aux k q 0 (xs.drop q) from rfl] at hp
          rcases List.mem_cons.mp hp with hp1 | hp1
          · subst hp1
            have h1 : (xs.take q).length = q := by
              rw [List.length_take, hlen, ← hmulge]
              omega
            intro hnil
            rw [hnil] at h1
            simp at h1
            omega
          · refine ih q 0 (xs.drop q) (Nat.zero_le k) hq ?_ part hp1
            rw [List.length_drop, hlen, ← hmulge]
            omega
      | succ r =>
          rw [show array_split_aux (k + 1) q (r + 1) xs
              = xs.take (q + 1) :: array_split_aux k q r (xs.drop (q + 1)) from rfl] at hp
          rcases List.mem_cons.mp hp with hp1 | hp1
          · subst hp1
            have h1 : (xs.take (q + 1)).length = q + 1 := by
              rw [List.length_take, hlen, ← hmulge]
              omega
            intro hnil
            rw [hnil] at h1
            simp at h1
          · refine ih q r (xs.drop (q + 1)) (by omega) hq ?_ part hp1
            rw [List.length_drop, hlen, ← hmulge]
            omega

theorem array_split_ne_nil {α : Type} (l : List α) (n : Nat) (hn : 1 ≤ n)
    (hnl : n ≤ l.length) :
    ∀ part ∈ array_split l n, part ≠ [] := by
  have hq : 1 ≤ l.length / n := (Nat.one_le_div_iff hn).mpr hnl
  have hmod : l.length % n < n := Nat.mod_lt _ hn
  exact array_split_aux_ne_nil n (l.length / n) (l.length % n) l (le_of_lt hmod) hq
    (Nat.div_add_mod l.length n).symm

/-! ## Lemmas about the attribute dict and projection -/

theorem buildDict_ok_mem :
    ∀ (fields : List Str) (acc d : List (Str × Str)), buildDict acc fields = .ok d →
      ∀ p ∈ d, p ∈ acc ∨
        ((∃ y, p.1 = pyStrip y) ∧ ∃ field ∈ fields, ∀ x ∈ p.2, x ∈ field) := by
  intro fields
  induction fields with
  | nil =>
      intro acc d h p hp
      simp only [buildDict, Except.ok.injEq] at h
      subst h
      exact .inl hp
  | cons field fs ih =>
      intro acc d h p hp
      simp only [buildDict] at h
      cases hsplit : pySplit '"' field with
      | nil => rw [hsplit] at h; simp at h
      | cons k parts =>
          cases parts with
          | nil => rw [hsplit] at h; simp at h
          | cons v rest =>
              rw [hsplit] at h
              rcases ih _ _ h p hp with hin | ⟨hkey, f1, hf1, hsub⟩
              · rcases List.mem_cons.mp hin with h1 | h1
                · subst h1
                  refine .inr ⟨⟨k, rfl⟩, field, List.mem_cons_self field fs, ?_⟩
                  intro x hx
                  exact mem_pySplit '"' field v
                    (hsplit ▸ List.mem_cons_of_mem _ (List.mem_cons_self v rest)) x hx
                · exact .inl h1
              · exact .inr ⟨hkey, f1, List.mem_cons_of_mem _ hf1, hsub⟩

theorem lookupD_mem_or_dot (d : List (Str × Str)) (key : Str) :
    lookupD d key = ['.'] ∨ ∃ p ∈ d, lookupD d key = p.2 := by
  unfold lookupD
  cases hf : d.find? (fun p => decide (p.1 = key)) with
  | none => exact .inl rfl
  | some p => exact .inr ⟨p, List.mem_of_find?_eq_some hf, rfl⟩

theorem extract_annotation_no_newline (attrs : Str) (hattrs : '\n' ∉ attrs) (a : Str)
    (h : extract_annotation attrs = .ok a) : '\n' ∉ a := by
  unfold extract_annotation at h
  cases hb : buildDict [] (pySplit ';' (pyRstrip ';' attrs)) with
  | error e => rw [hb] at h; simp at h
  | ok d =>
      rw [hb] at h
      simp only [Except.ok.injEq] at h
      subst h
      intro hx
      rcases mem_pyJoin _ _ _ hx with h1 | ⟨part, hpart, hxp⟩
      · simp at h1
      · rw [List.mem_map] at hpart
        rcases hpart with ⟨key, _, hpart⟩
        subst hpart
        rcases lookupD_mem_or_dot d key with hdot | ⟨p, hp, hlook⟩
        · rw [hdot] at hxp
          simp at hxp
        · rw [hlook] at hxp
          rcases buildDict_ok_mem _ _ _ hb p hp with hacc | ⟨_, field, hfield, hsub⟩
          · simp at hacc
          · exact hattrs (mem_pyRstrip ';' attrs '\n'
              (mem_pySplit ';' _ field hfield '\n' (hsub _ hxp)))

theorem fallback_row_no_newline (c : Str) (p : Int) (hc : '\n' ∉ c) :
    '\n' ∉ fallback_row c p := by
  unfold fallback_row
  intro hx
  simp only [List.append_assoc, List.mem_append] at hx
  rcases hx with hx | hx | hx | hx | hx
  · exact hc hx
  · simp at hx
  · exact intToStr_no_newline p hx
  · simp at hx
  · have : ('\n' : Char) ∈ pyJoin ['\t'] ( annotation_fields.map (fun _ => ['.'])) := hx
    revert this
    decide

/-- Any output row of `annotate_position` contains a non-whitespace
character, because `str(position)` contributes at least one digit. -/
theorem row_exists_not_ws (c : Str) (p : Int) (tail : Str) :
    ∃ x ∈ c ++ ['\t'] ++ intToStr p ++ ['\t'] ++ tail, isPyWs x = false := by
  rcases intToStr_exists_not_ws p with ⟨x, hx, hw⟩
  refine ⟨x, ?_, hw⟩
  simp only [List.append_assoc, List.mem_append]
  exact .inr (.inr (.inl hx))

theorem fallback_row_exists_not_ws (c : Str) (p : Int) :
    ∃ x ∈ fallback_row c p, isPyWs x = false :=
  row_exists_not_ws c p _

/-- Line count of one position's annotation string: after `strip()` and
`split("\n")` it has exactly `max 1 k` lines, where `k` is the number of
overlapping features. -/
theorem annotate_position_line_count (knowledge_df : List Feature) (c : Str) (p : Int)
    (hc : '\n' ∉ c) (hk : ∀ f ∈ knowledge_df, '\n' ∉ f.attributes) (a : Str)
    (h : annotate_position knowledge_df c p = .ok a) :
    (pySplit '\n' (pyStrip a)).length = max 1 ( overlap_count knowledge_df c p) := by
  unfold annotate_position at h
  cases hm : exceptMapM (fun f => extract_annotation f.attributes)
      (knowledge_df.filter (fun f => feature_overlaps f c p)) with
  | error e => rw [hm] at h; simp at h
  | ok annotation_rows =>
      rw [hm] at h
      dsimp only at h
      have hlen := exceptMapM_ok_length _ _ _ hm
      by_cases hrows : annotation_rows.isEmpty
      · rw [if_pos hrows] at h
        simp only [Except.ok.injEq] at h
        subst h
        have h0 : annotation_rows = [] := List.isEmpty_iff.mp hrows
        have hcount : overlap_count knowledge_df c p = 0 := by
          unfold overlap_count
          rw [← hlen, h0]
          rfl
        rw [hcount]
        have hnl : '\n' ∉ pyStrip (fallback_row c p) := by
          intro hx
          exact fallback_row_no_newline c p hc (mem_pyStrip _ _ hx)
        rw [pySplit_no_sep '\n' _ hnl]
        rfl
      · rw [if_neg hrows] at h
        simp only [Except.ok.injEq] at h
        subst h
        have hne : annotation_rows ≠ [] := by
          intro h0
          rw [h0] at hrows
          simp at hrows
        have hmapne : annotation_rows.map
            (fun row => c ++ ['\t'] ++ intToStr p ++ ['\t'] ++ row) ≠ [] := by
          simpa using hne
        have h1 : ∀ r ∈ annotation_rows.map
            (fun row => c ++ ['\t'] ++ intToStr p ++ ['\t'] ++ row), '\n' ∉ r := by
          intro r hr
          rw [List.mem_map] at hr
          rcases hr with ⟨row, hrow, hr⟩
          subst hr
          rcases exceptMapM_ok_mem _ _ _ hm row hrow with ⟨f, hf, hex⟩
          have hfk : f ∈ knowledge_df := List.mem_of_mem_filter hf
          have hrownl : '\n' ∉ row := extract_annotation_no_newline _ (hk f hfk) _ hex
          intro hx
          simp only [List.append_assoc, List.mem_append] at hx
          rcases hx with hx | hx | hx | hx | hx
          · exact hc hx
          · simp at hx
          · exact intToStr_no_newline p hx
          · simp at hx
          · exact hrownl hx
        have h2 : ∀ r ∈ annotation_rows.map
            (fun row => c ++ ['\t'] ++ intToStr p ++ ['\t'] ++ row),
            ∃ x ∈ r, isPyWs x = false := by
          intro r hr
          rw [List.mem_map] at hr
          rcases hr with ⟨row, _, hr⟩
          subst hr
          exact row_exists_not_ws c p row
        rw [length_pySplit_pyStrip_pyJoin _ hmapne h1 h2, List.length_map]
        unfold overlap_count
        rw [← hlen]
        have : 1 ≤ annotation_rows.length := by
          cases annotation_rows with
          | nil => exact absurd rfl hne
          | cons x xs => simp
        omega

/-! ## Output length bookkeeping -/

theorem writeOutput_length (annotated_df : List (QueryPosition × Str)) :
    ( writeOutput annotated_df).length
      = 1 + (annotated_df.map (fun row => (pySplit '\n' (pyStrip row.2)).length)).sum := by
  unfold writeOutput
  rw [List.length_cons, List.length_flatten, List.map_map]
  have hc : (List.length ∘ fun row : QueryPosition × Str => pySplit '\n' (pyStrip row.2))
      = fun row : QueryPosition × Str => (pySplit '\n' (pyStrip row.2)).length := rfl
  rw [hc]
  omega

theorem annotate_mapM_sum (knowledge_df : List Feature)
    (hk : ∀ f ∈ knowledge_df, '\n' ∉ f.attributes) :
    ∀ (part : List QueryPosition) (rows : List (QueryPosition × Str)),
      (∀ q ∈ part, '\n' ∉ q.chromosome) →
      exceptMapM (fun q =>
        match annotate_position knowledge_df q.chromosome q.position with
        | .error e => .error e
        | .ok a => .ok (q, a)) part = .ok rows →
      (rows.map (fun row => (pySplit '\n' (pyStrip row.2)).length)).sum
        = (part.map (fun q => max 1 ( overlap_count knowledge_df q.chromosome q.position))).sum := by
  intro part
  induction part with
  | nil =>
      intro rows hc h
      simp only [exceptMapM, Except.ok.injEq] at h
      rw [← h]
      rfl
  | cons q qs ih =>
      intro rows hc h
      simp only [exceptMapM] at h
      cases ha : annotate_position knowledge_df q.chromosome q.position with
      | error e => rw [ha] at h; simp at h
      | ok a =>
          rw [ha] at h
          dsimp only at h
          cases hrest : exceptMapM (fun q =>
              match annotate_position knowledge_df q.chromosome q.position with
              | .error e => .error e
              | .ok a => .ok (q, a)) qs with
          | error e => rw [hrest] at h; simp at h
          | ok rows1 =>
              rw [hrest] at h
              simp only [Except.ok.injEq] at h
              rw [← h]
              simp only [List.map_cons, List.sum_cons]
              rw [ih rows1 (fun q1 hq1 => hc q1 (List.mem_cons_of_mem _ hq1)) hrest,
                annotate_position_line_count knowledge_df q.chromosome q.position
                  (hc q (List.mem_cons_self q qs)) hk a ha]

theorem annotate_parts_sum (knowledge_df : List Feature)
    (hk : ∀ f ∈ knowledge_df, '\n' ∉ f.attributes) :
    ∀ (parts : List (List QueryPosition)) (results : List (List (QueryPosition × Str))),
      (∀ q ∈ parts.flatten, '\n' ∉ q.chromosome) →
      exceptMapM ( execute_annotation knowledge_df) parts = .ok results →
      (results.flatten.map (fun row => (pySplit '\n' (pyStrip row.2)).length)).sum
        = (parts.flatten.map
            (fun q => max 1 ( overlap_count knowledge_df q.chromosome q.position))).sum := by
  intro parts
  induction parts with
  | nil =>
      intro results hc h
      simp only [exceptMapM, Except.ok.injEq] at h
      rw [← h]
      rfl
  | cons part ps ih =>
      intro results hc h
      simp only [exceptMapM] at h
      cases hex : execute_annotation knowledge_df part with
      | error e => rw [hex] at h; simp at h
      | ok rows1 =>
          rw [hex] at h
          cases hrest : exceptMapM ( execute_annotation knowledge_df) ps with
          | error e => rw [hrest] at h; simp at h
          | ok results1 =>
              rw [hrest] at h
              simp only [Except.ok.injEq] at h
              rw [← h]
              simp only [List.flatten_cons, List.map_append, List.sum_append]
              have hsum1 : (rows1.map (fun row => (pySplit '\n' (pyStrip row.2)).length)).sum
                  = (part.map
                      (fun q => max 1 ( overlap_count knowledge_df q.chromosome q.position))).sum := by
                unfold execute_annotation at hex
                by_cases hemp : part.isEmpty
                · rw [if_pos hemp] at hex; simp at hex
                · rw [if_neg hemp] at hex
                  exact annotate_mapM_sum knowledge_df hk part rows1
                    (fun q hq => hc q (by
                      rw [List.flatten_cons, List.mem_append]
                      exact .inl hq)) hex
              rw [hsum1, ih results1 (fun q hq => hc q (by
                rw [List.flatten_cons, List.mem_append]
                exact .inr hq)) hrest]

theorem pool_size_toNat_pos (num_cpus : Int) : 1 ≤ (pool_size num_cpus).toNat := by
  unfold pool_size
  have h1 : (1 : Int) ≤ max (num_cpus - 1) 1 := le_max_right _ _
  omega

theorem sub_dfs_flatten (input_positions_df : List QueryPosition) (num_cpus : Int) :
    (sub_dfs input_positions_df num_cpus).flatten = input_positions_df := by
  unfold sub_dfs
  exact array_split_flatten _ _ (pool_size_toNat_pos num_cpus)

/-- C4: for a run that succeeds, the number of data lines written to the
output file (excluding the single header line) is the sum over all query
positions of `max 1 (number of overlapping features)`.  The newline-freeness
hypotheses record that chromosomes and attribute strings come from single
lines of tab-separated files. -/
theorem row_count_conservation (knowledge_df : List Feature)
    (input_positions_df : List QueryPosition) (num_cpus : Int) (lines : List Str)
    (hk : ∀ f ∈ knowledge_df, '\n' ∉ f.attributes)
    (hq : ∀ q ∈ input_positions_df, '\n' ∉ q.chromosome)
    (h : annotate_all_positions knowledge_df input_positions_df num_cpus = .ok lines) :
    lines.length = 1 + (input_positions_df.map
      (fun q => max 1 ( overlap_count knowledge_df q.chromosome q.position))).sum := by
  unfold annotate_all_positions at h
  cases hm : exceptMapM ( execute_annotation knowledge_df)
      (sub_dfs input_positions_df num_cpus) with
  | error e => rw [hm] at h; simp at h
  | ok results =>
      rw [hm] at h
      simp only [Except.ok.injEq] at h
      rw [← h, writeOutput_length]
      have hflat := sub_dfs_flatten input_positions_df num_cpus
      rw [annotate_parts_sum knowledge_df hk _ _ (by rw [hflat]; exact hq) hm, hflat]

/-- C2: a query position overlapped by no feature yields exactly the single
fallback row `chromosome\tposition\t.\t.\t.\t.\t.`, which the writer splits
into exactly one output line. -/
theorem no_match_fallback (knowledge_df : List Feature) (chromosome : Str) (position : Int)
    (hno : ∀ f ∈ knowledge_df,
      ¬ (f.chr = chromosome ∧ f.start ≤ position ∧ position ≤ f.«end»))
    (hc : '\n' ∉ chromosome) :
    annotate_position knowledge_df chromosome position
        = .ok (fallback_row chromosome position)
      ∧ (pySplit '\n' (pyStrip (fallback_row chromosome position))).length = 1 := by
  have hfilter : knowledge_df.filter (fun f => feature_overlaps f chromosome position) = [] := by
    rw [List.filter_eq_nil_iff]
    intro f hf hov
    unfold feature_overlaps at hov
    simp only [Bool.and_eq_true, decide_eq_true_eq] at hov
    exact hno f hf ⟨hov.1.1, hov.1.2, hov.2⟩
  refine ⟨?_, ?_⟩
  · unfold annotate_position
    rw [hfilter]
    rfl
  · have hnl : '\n' ∉ pyStrip (fallback_row chromosome position) := fun hx =>
      fallback_row_no_newline _ _ hc (mem_pyStrip _ _ hx)
    rw [pySplit_no_sep '\n' _ hnl]
    rfl

/-- C3: the row filter of `annotate_position` treats `[start, end]` as a
closed interval: positions equal to `start` or `end` are selected, while
`start - 1` and `end + 1` are not. -/
theorem closed_interval_boundary (f : Feature) (chromosome : Str)
    (hchr : f.chr = chromosome) (hse : f.start ≤ f.«end») :
    feature_overlaps f chromosome f.start = true ∧
    feature_overlaps f chromosome f.«end» = true ∧
    feature_overlaps f chromosome (f.start - 1) = false ∧
    feature_overlaps f chromosome (f.«end» + 1) = false := by
  unfold feature_overlaps
  refine ⟨?_, ?_, ?_, ?_⟩ <;> simp [hchr] <;> omega

/-! ## Demo data: the end-to-end example of the spec -/

/-- The single feature row `chr1  src  gene  100  200  .  +  .`
with attributes `gene_id "G1"; gene_name "Foo";`. -/
def demoFeature : Feature :=
  ⟨"chr1".toList, "src".toList, "gene".toList, 100, 200, ".".toList, "+".toList,
    ".".toList, "gene_id \"G1\"; gene_name \"Foo\";".toList⟩

/-- The two query positions `chr1 150` and `chr1 500`. -/
def demoPositions : List QueryPosition :=
  [⟨"chr1".toList, 150⟩, ⟨"chr1".toList, 500⟩]

/-! ## C2/C3/C4 witnesses -/

/-- Witness for `no_match_fallback`: position 500 overlaps nothing on chr1. -/
theorem no_match_fallback_witness :
    annotate_position [demoFeature] "chr1".toList 500
        = .ok (fallback_row "chr1".toList 500)
      ∧ (pySplit '\n' (pyStrip (fallback_row "chr1".toList 500))).length = 1 :=
  no_match_fallback [demoFeature] "chr1".toList 500 (by decide) (by decide)

/-- Witness for `closed_interval_boundary` on the demo feature `[100, 200]`. -/
theorem closed_interval_boundary_witness :
    feature_overlaps demoFeature "chr1".toList demoFeature.start = true ∧
    feature_overlaps demoFeature "chr1".toList demoFeature.«end» = true ∧
    feature_overlaps demoFeature "chr1".toList (demoFeature.start - 1) = false ∧
    feature_overlaps demoFeature "chr1".toList (demoFeature.«end» + 1) = false :=
  closed_interval_boundary demoFeature "chr1".toList (by decide) (by decide)

/-- Witness for `row_count_conservation` on the demo run: three lines
(header plus one line per position, each with one row). -/
theorem row_count_conservation_witness :
    ( writeOutput [(⟨"chr1".toList, 150⟩, "chr1\t150\tG1\t.\t.\t.\tFoo".toList),
        (⟨"chr1".toList, 500⟩, "chr1\t500\t.\t.\t.\t.\t.".toList)]).length
      = 1 + (demoPositions.map
          (fun q => max 1 ( overlap_count [demoFeature] q.chromosome q.position))).sum :=
  row_count_conservation [demoFeature] demoPositions 1 _ (by decide) (by decide) rfl

/-! ## C8: the header line -/

/-- C8: every successful run's output starts with the single header line
`chr\tpos\tgene_id\ttranscript_id\texon_number \texon_id\tgene_name`
(with the verbatim trailing space inside `exon_number `), written once. -/
theorem header_first_line (knowledge_df : List Feature)
    (input_positions_df : List QueryPosition) (num_cpus : Int) (lines : List Str)
    (h : annotate_all_positions knowledge_df input_positions_df num_cpus = .ok lines) :
    ∃ rest, lines = output_header :: rest ∧
      output_header
        = "chr\tpos\tgene_id\ttranscript_id\texon_number \texon_id\tgene_name".toList := by
  unfold annotate_all_positions at h
  cases hm : exceptMapM ( execute_annotation knowledge_df)
      (sub_dfs input_positions_df num_cpus) with
  | error e => rw [hm] at h; simp at h
  | ok results =>
      rw [hm] at h
      simp only [Except.ok.injEq] at h
      exact ⟨_, h.symm, by decide⟩

/-- Witness for `header_first_line` on the demo run. -/
theorem header_first_line_witness :
    ∃ rest, writeOutput [(⟨"chr1".toList, 150⟩,
        "chr1\t150\tG1\t.\t.\t.\tFoo".toList),
        (⟨"chr1".toList, 500⟩, "chr1\t500\t.\t.\t.\t.\t.".toList)]
        = output_header :: rest ∧
      output_header
        = "chr\tpos\tgene_id\ttranscript_id\texon_number \texon_id\tgene_name".toList :=
  header_first_line [demoFeature] demoPositions 1 _ rfl

/-! ## C9: malformed attribute fields raise and propagate -/

theorem buildDict_error :
    ∀ (fields : List Str) (acc : List (Str × Str)),
      (∃ field ∈ fields, '"' ∉ field) → buildDict acc fields = .error .indexError := by
  intro fields
  induction fields with
  | nil => intro acc h; simp at h
  | cons f fs ih =>
      intro acc h
      rcases h with ⟨field, hfield, hqf⟩
      rcases List.mem_cons.mp hfield with h1 | h1
      · subst h1
        have hs : pySplit '"' field = [field] := pySplit_no_sep '"' field hqf
        simp only [buildDict, hs]
      · cases hsplit : pySplit '"' f with
        | nil => simp only [buildDict, hsplit]
        | cons k parts =>
            cases parts with
            | nil => simp only [buildDict, hsplit]
            | cons v rest =>
                simp only [buildDict, hsplit]
                exact ih _ ⟨field, h1, hqf⟩

/-- C9: if any field of the attribute string (after stripping the trailing
`;` and splitting on `;`) is non-empty and has no `"`, then
`extract_annotation` raises `IndexError` instead of returning, and the
`@log` wrapper re-raises the same error unchanged. -/
theorem malformed_field_error (attributes_field : Str) (field : Str)
    (hf : field ∈ pySplit ';' (pyRstrip ';' attributes_field))
    (_hne : field ≠ []) (hq : '"' ∉ field) :
    extract_annotation attributes_field = .error .indexError ∧
    log ( extract_annotation attributes_field) = .error .indexError := by
  have herr : buildDict [] (pySplit ';' (pyRstrip ';' attributes_field))
      = .error .indexError := buildDict_error _ _ ⟨field, hf, hq⟩
  refine ⟨?_, ?_⟩
  · unfold extract_annotation
    rw [herr]
  · unfold log extract_annotation
    rw [herr]

/-- Witness for `malformed_field_error`: the field `gene_id G1` carries no
`"` delimiter. -/
theorem malformed_field_error_witness :
    ("gene_id G1".toList ∈
        pySplit ';' (pyRstrip ';' "gene_id G1; gene_name \"Foo\";".toList)) ∧
    extract_annotation "gene_id G1; gene_name \"Foo\";".toList = .error .indexError ∧
    log ( extract_annotation "gene_id G1; gene_name \"Foo\";".toList)
      = .error .indexError := by
  refine ⟨by decide, ?_⟩
  exact malformed_field_error "gene_id G1; gene_name \"Foo\";".toList
    "gene_id G1".toList (by decide) (by decide) (by decide)

/-! ## C10: the exon_number projection slot is always the placeholder -/

theorem lookupD_not_mem (d : List (Str × Str)) (key : Str)
    (h : ∀ p ∈ d, ¬ p.1 = key) : lookupD d key = ['.'] := by
  unfold lookupD
  cases hfind : d.find? (fun p => decide (p.1 = key)) with
  | none => rfl
  | some p =>
      have hp := List.mem_of_find?_eq_some hfind
      have hkey := List.find?_some hfind
      simp only [decide_eq_true_eq] at hkey
      exact absurd hkey (h p hp)

/-- The result of `str.strip()` never ends in whitespace, so a parsed key
can never equal `"exon_number "` (which ends in a space). -/
theorem pyStrip_ne_exon_key (y : Str) : pyStrip y ≠ "exon_number ".toList := by
  intro h
  have hrev : (pyStrip y).reverse = (y.dropWhile isPyWs).reverse.dropWhile isPyWs := by
    unfold pyStrip
    rw [List.reverse_reverse]
  rw [h] at hrev
  have hsp : ("exon_number ".toList).reverse = ' ' :: "rebmun_noxe".toList := by decide
  rw [hsp] at hrev
  have := dropWhile_head_false _ _ _ hrev.symm
  exact absurd this (by decide)

/-- C10: whenever `extract_annotation` succeeds, the third projected field
(the slot for the recognized key `exon_number `, with its trailing space)
is the placeholder `.`, because parsed keys are whitespace-stripped and can
never match a key ending in a space. -/
theorem exon_number_always_dot (attributes_field : Str) (a : Str)
    (h : extract_annotation attributes_field = .ok a) :
    ∃ v1 v2 v4 v5 : Str, a = pyJoin ['\t'] [v1, v2, ['.'], v4, v5] := by
  unfold extract_annotation at h
  cases hb : buildDict [] (pySplit ';' (pyRstrip ';' attributes_field)) with
  | error e => rw [hb] at h; simp at h
  | ok d =>
      rw [hb] at h
      simp only [Except.ok.injEq] at h
      refine ⟨lookupD d "gene_id".toList, lookupD d "transcript_id".toList,
        lookupD d "exon_id".toList, lookupD d "gene_name".toList, ?_⟩
      have hdot : lookupD d ("exon_number ".toList) = ['.'] := by
        apply lookupD_not_mem
        intro p hp hkey
        rcases buildDict_ok_mem _ _ _ hb p hp with hacc | ⟨⟨y, hy⟩, _⟩
        · simp at hacc
        · exact pyStrip_ne_exon_key y (by rw [← hy, hkey])
      rw [← h]
      simp only [annotation_fields, List.map_cons, List.map_nil, hdot]

/-- Witness for `exon_number_always_dot`: even with `exon_number "7"`
present, the third slot is `.`. -/
theorem exon_number_always_dot_witness :
    ∃ v1 v2 v4 v5 : Str,
      "g\tt\t.\te\tn".toList = pyJoin ['\t'] [v1, v2, ['.'], v4, v5] :=
  exon_number_always_dot
    ("gene_id \"g\"; transcript_id \"t\"; exon_number \"7\"; exon_id \"e\"; gene_name \"n\";".toList)
    _ rfl

/-! ## C5: pool size / partition count -/

/-- C5 counterexample: with requested cpu count 4 the code builds
`max(4 - 1, 1) = 3` workers and partitions, not `max(4, 1) = 4`. -/
theorem worker_pool_size_counterexample :
    pool_size 4 = 3 ∧ (sub_dfs demoPositions 4).length = 3 ∧ (3 : Int) ≠ max 4 1 := by
  refine ⟨rfl, ?_, by decide⟩
  rfl

/-- C5 amended: for every requested worker count `n`, both the pool size
passed to `parallel_process` and the number of partitions produced by
`np.array_split` equal `max(n - 1, 1)`. -/
theorem worker_pool_size (input_positions_df : List QueryPosition) (num_cpus : Int) :
    ((sub_dfs input_positions_df num_cpus).length : Int) = max (num_cpus - 1) 1 := by
  unfold sub_dfs
  rw [array_split_length]
  have h0 : (0 : Int) ≤ pool_size num_cpus :=
    le_trans (by decide) (le_max_right (num_cpus - 1) 1)
  rw [Int.toNat_of_nonneg h0]
  rfl

/-! ## C6: the end-to-end example -/

/-- C6: annotating positions `chr1 150` and `chr1 500` against the single
demo feature produces exactly the header line plus the two data rows
`chr1\t150\tG1\t.\t.\t.\tFoo` and `chr1\t500\t.\t.\t.\t.\t.`. -/
theorem end_to_end_example :
    annotate_all_positions [demoFeature] demoPositions 1
      = .ok ["chr\tpos\tgene_id\ttranscript_id\texon_number \texon_id\tgene_name".toList,
             "chr1\t150\tG1\t.\t.\t.\tFoo".toList,
             "chr1\t500\t.\t.\t.\t.\t.".toList] := rfl

/-! ## C7: partition invariance -/

/-- C7 counterexample: with one query position split into 2 partitions the
second partition is empty, so its worker's `np.vectorize` call raises
`ValueError` and the 2-partition run returns no rows at all, while the
1-partition run returns one fallback row. -/
theorem partition_invariance_counterexample :
    execute_annotation [] [⟨"chr1".toList, 150⟩]
        = .ok [(⟨"chr1".toList, 150⟩, fallback_row "chr1".toList 150)] ∧
    exceptMapM ( execute_annotation []) (array_split [⟨"chr1".toList, 150⟩] 2)
        = .error .valueError :=
  ⟨rfl, rfl⟩

theorem exceptMapM_parts (knowledge_df : List Feature) :
    ∀ (parts : List (List QueryPosition)) (r : List (QueryPosition × Str)),
      (∀ part ∈ parts, part ≠ []) →
      exceptMapM (fun q =>
        match annotate_position knowledge_df q.chromosome q.position with
        | .error e => .error e
        | .ok a => .ok (q, a)) parts.flatten = .ok r →
      ∃ rs, exceptMapM ( execute_annotation knowledge_df) parts = .ok rs ∧
        rs.flatten = r := by
  intro parts
  induction parts with
  | nil =>
      intro r _ h
      simp only [List.flatten_nil, exceptMapM, Except.ok.injEq] at h
      exact ⟨[], rfl, by rw [← h]; rfl⟩
  | cons part ps ih =>
      intro r hne h
      rw [List.flatten_cons] at h
      rcases exceptMapM_append_ok _ _ _ _ h with ⟨r1, r2, h1, h2, h3⟩
      rcases ih r2 (fun p hp => hne p (List.mem_cons_of_mem _ hp)) h2 with
        ⟨rs1, hrs1, hflat1⟩
      have hpne : ¬ part.isEmpty = true := by
        have hx := hne part (List.mem_cons_self part ps)
        cases part with
        | nil => exact absurd rfl hx
        | cons a as => simp
      refine ⟨r1 :: rs1, ?_, by rw [List.flatten_cons, hflat1, h3]⟩
      have hex : execute_annotation knowledge_df part = .ok r1 := by
        unfold execute_annotation
        rw [if_neg hpne]
        exact h1
      simp only [exceptMapM, hex, hrs1]

/-- C7 amended: for every `N` with `1 ≤ N ≤ (number of query positions)`
(equivalently: every partition nonempty), running the annotation on the
list split into `N` partitions succeeds and the concatenation of the
partition results equals the 1-partition result — in particular the two
runs produce the identical multiset of output rows. -/
theorem partition_invariance (knowledge_df : List Feature)
    (input_positions_df : List QueryPosition) (N : Nat) (r : List (QueryPosition × Str))
    (hN : 1 ≤ N) (hlen : N ≤ input_positions_df.length)
    (h : execute_annotation knowledge_df input_positions_df = .ok r) :
    ∃ rs, exceptMapM ( execute_annotation knowledge_df)
        (array_split input_positions_df N) = .ok rs ∧ rs.flatten = r := by
  have hflat := array_split_flatten input_positions_df N hN
  have hne := array_split_ne_nil input_positions_df N hN hlen
  unfold execute_annotation at h
  have hinput : ¬ input_positions_df.isEmpty = true := by
    cases input_positions_df with
    | nil => simp at hlen; omega
    | cons a as => simp
  rw [if_neg hinput] at h
  refine exceptMapM_parts knowledge_df _ r hne ?_
  rw [hflat]
  exact h

/-- Witness for `partition_invariance`: two positions in two partitions. -/
theorem partition_invariance_witness :
    ∃ rs, exceptMapM ( execute_annotation [demoFeature])
        (array_split demoPositions 2) = .ok rs ∧
      rs.flatten = [(⟨"chr1".toList, 150⟩, "chr1\t150\tG1\t.\t.\t.\tFoo".toList),
        (⟨"chr1".toList, 500⟩, fallback_row "chr1".toList 500)] :=
  partition_invariance [demoFeature] demoPositions 2 _ (by decide) (by decide) rfl

/-! ## C1: projection over attribute strings with all five keys -/

/-- One GTF attribute field `key "value"` in the standard single-space
layout (a leading space comes from splitting `"; "`-separated fields). -/
def mkField (p : Str × Str) : Str :=
  ' ' :: (p.1 ++ [' ', '"'] ++ p.2 ++ ['"'])

/-- A GTF attributes string assembled from key/value pairs: fields joined
by `;` with one trailing `;`. -/
def mkAttrString (kvs : List (Str × Str)) : Str :=
  pyJoin [';'] (kvs.map mkField) ++ [';']

/-- The five recognized keys paired with the values `g t x e n`, in
canonical order; a permutation of this list represents "contains all five
keys, in any order". -/
def gtfKeyVals (g t x e n : Str) : List (Str × Str) :=
  [("gene_id".toList, g), ("transcript_id".toList, t), ("exon_number".toList, x),
   ("exon_id".toList, e), ("gene_name".toList, n)]

theorem pyRstrip_append_sep (c : Char) (s : Str) :
    pyRstrip c (s ++ [c]) = pyRstrip c s := by
  unfold pyRstrip
  simp [List.dropWhile_cons]

theorem pyRstrip_no_tail (c : Char) (s : Str) (d : Char) (hl : s.getLast? = some d)
    (hd : d ≠ c) : pyRstrip c s = s := by
  unfold pyRstrip
  have hh : s.reverse.head? = some d := by rw [List.head?_reverse]; exact hl
  cases hs : s.reverse with
  | nil => rw [hs] at hh; simp at hh
  | cons a ta =>
      rw [hs] at hh
      simp only [List.head?_cons, Option.some.injEq] at hh
      subst hh
      rw [List.dropWhile_cons, if_neg (by simpa using hd), ← hs,
        List.reverse_reverse]

theorem pyJoin_getLast (sep : Str) (q : Char) :
    ∀ (parts : List Str), parts ≠ [] → (∀ p ∈ parts, p.getLast? = some q) →
      (pyJoin sep parts).getLast? = some q := by
  intro parts
  induction parts with
  | nil => intro h; exact absurd rfl h
  | cons a ps ih =>
      intro _ hall
      cases ps with
      | nil => exact hall a (List.mem_cons_self a [])
      | cons b bs =>
          rw [pyJoin_cons sep a (b :: bs) (by simp)]
          have hjoin := ih (by simp) (fun p hp => hall p (List.mem_cons_of_mem _ hp))
          rw [List.getLast?_append, hjoin]
          rfl

theorem mkField_getLast (p : Str × Str) : (mkField p).getLast? = some '"' := by
  unfold mkField
  rw [show ' ' :: (p.1 ++ [' ', '"'] ++ p.2 ++ ['"'])
      = (' ' :: (p.1 ++ [' ', '"'] ++ p.2)) ++ ['"'] by simp]
  exact List.getLast?_concat _

theorem mkField_no_semi (p : Str × Str) (hk : ';' ∉ p.1) (hv : ';' ∉ p.2) :
    ';' ∉ mkField p := by
  unfold mkField
  intro hx
  rcases List.mem_cons.mp hx with h | h
  · exact absurd h (by decide)
  · rcases List.mem_append.mp h with h1 | h1
    · rcases List.mem_append.mp h1 with h2 | h2
      · rcases List.mem_append.mp h2 with h3 | h3
        · exact hk h3
        · exact absurd h3 (by decide)
      · exact hv h2
    · exact absurd h1 (by decide)

theorem pySplit_mkField (p : Str × Str) (hk : '"' ∉ p.1) (hv : '"' ∉ p.2) :
    pySplit '"' (mkField p) = [' ' :: p.1 ++ [' '], p.2, []] := by
  have ha : '"' ∉ ' ' :: p.1 ++ [' '] := by
    intro hx
    rcases List.mem_cons.mp hx with h | h
    · exact absurd h (by decide)
    · rcases List.mem_append.mp h with h1 | h1
      · exact hk h1
      · exact absurd h1 (by decide)
  have h1 : mkField p = (' ' :: p.1 ++ [' ']) ++ '"' :: (p.2 ++ ['"']) := by
    unfold mkField
    simp
  rw [h1, pySplit_append_sep '"' _ _ ha,
    show p.2 ++ ['"'] = p.2 ++ '"' :: [] from rfl, pySplit_append_sep '"' _ _ hv]
  rfl

theorem buildDict_mkFields :
    ∀ (kvs : List (Str × Str)) (acc : List (Str × Str)),
      (∀ p ∈ kvs, '"' ∉ p.1 ∧ '"' ∉ p.2 ∧ pyStrip (' ' :: p.1 ++ [' ']) = p.1) →
      buildDict acc (kvs.map mkField) = .ok (kvs.reverse ++ acc) := by
  intro kvs
  induction kvs with
  | nil => intro acc _; rfl
  | cons p ps ih =>
      intro acc h
      obtain ⟨hk, hv, hstrip⟩ := h p (List.mem_cons_self p ps)
      simp only [List.map_cons, buildDict, pySplit_mkField p hk hv]
      rw [hstrip, show (p.1, p.2) = p from rfl,
        ih (p :: acc) (fun p1 hp1 => h p1 (List.mem_cons_of_mem _ hp1))]
      simp

theorem lookupD_unique (d : List (Str × Str)) (key v : Str)
    (hmem : (key, v) ∈ d) (huniq : ∀ p ∈ d, p.1 = key → p.2 = v) :
    lookupD d key = v := by
  induction d with
  | nil => simp at hmem
  | cons p0 ps ih =>
      by_cases h0 : p0.1 = key
      · have he : lookupD (p0 :: ps) key = p0.2 := by
          unfold lookupD
          rw [List.find?_cons_of_pos _ (by simpa using h0)]
        rw [he]
        exact huniq p0 (List.mem_cons_self _ _) h0
      · have hmem1 : (key, v) ∈ ps := by
          rcases List.mem_cons.mp hmem with h1 | h1
          · rw [← h1] at h0
            simp at h0
          · exact h1
        have he : lookupD (p0 :: ps) key = lookupD ps key := by
          unfold lookupD
          rw [List.find?_cons_of_neg _ (by simpa using h0)]
        rw [he]
        exact ih hmem1 (fun p hp hkey => huniq p (List.mem_cons_of_mem _ hp) hkey)

/-- C1 counterexample: an attributes string carrying all five recognized
keys, with exon_number value `7`; the parser returns `.` in the
exon_number slot, so the projection is not the five quoted values. -/
theorem projection_completeness_counterexample :
    extract_annotation
        ("gene_id \"g\"; transcript_id \"t\"; exon_number \"7\"; exon_id \"e\"; gene_name \"n\";".toList)
      = .ok ("g\tt\t.\te\tn".toList)
    ∧ "g\tt\t.\te\tn".toList ≠ "g\tt\t7\te\tn".toList :=
  ⟨rfl, by decide⟩

/-- C1 amended: for an attributes string containing all five recognized
keys (standard GTF field layout) in any order, `extract_annotation`
returns the gene_id, transcript_id, exon_id and gene_name values in the
fixed canonical order, with the placeholder `.` in the exon_number slot
(the recognized key `exon_number ` carries a trailing space which a
whitespace-stripped parsed key can never match). -/
theorem projection_completeness_amended (g t x e n : Str) (kvs : List (Str × Str))
    (hperm : kvs.Perm (gtfKeyVals g t x e n))
    (hvals : ∀ p ∈ gtfKeyVals g t x e n, '"' ∉ p.2 ∧ ';' ∉ p.2) :
    extract_annotation (mkAttrString kvs)
      = .ok (pyJoin ['\t'] [g, t, ['.'], e, n]) := by
  have hin : ∀ p ∈ kvs, p ∈ gtfKeyVals g t x e n := fun p hp => hperm.mem_iff.mp hp
  have hcases : ∀ p ∈ gtfKeyVals g t x e n,
      p = ("gene_id".toList, g) ∨ p = ("transcript_id".toList, t) ∨
      p = ("exon_number".toList, x) ∨ p = ("exon_id".toList, e) ∨
      p = ("gene_name".toList, n) := by
    intro p hp
    simpa [gtfKeyVals] using hp
  have hA : ∀ p ∈ kvs, '"' ∉ p.1 ∧ '"' ∉ p.2 ∧ pyStrip (' ' :: p.1 ++ [' ']) = p.1 := by
    intro p hp
    have hv := hvals p (hin p hp)
    rcases hcases p (hin p hp) with h | h | h | h | h <;> subst h <;>
      refine ⟨?_, hv.1, ?_⟩ <;> dsimp only <;> decide
  have hB : ∀ f ∈ kvs.map mkField, ';' ∉ f := by
    intro f hf
    rw [List.mem_map] at hf
    rcases hf with ⟨p, hp, hfp⟩
    have hv := hvals p (hin p hp)
    refine hfp ▸ mkField_no_semi p ?_ hv.2
    rcases hcases p (hin p hp) with h | h | h | h | h <;> subst h <;> dsimp only <;> decide
  have hkvsne : kvs ≠ [] := by
    intro h0
    have := hperm.length_eq
    rw [h0] at this
    simp [gtfKeyVals] at this
  have hmapne : kvs.map mkField ≠ [] := by
    simpa using hkvsne
  have hfields : pySplit ';' (pyRstrip ';' (mkAttrString kvs)) = kvs.map mkField := by
    unfold mkAttrString
    rw [pyRstrip_append_sep]
    have hlast : (pyJoin [';'] (kvs.map mkField)).getLast? = some '"' := by
      refine pyJoin_getLast [';'] '"' _ hmapne ?_
      intro pf hpf
      rw [List.mem_map] at hpf
      rcases hpf with ⟨p, _, hp⟩
      exact hp ▸ mkField_getLast p
    rw [pyRstrip_no_tail ';' _ '"' hlast (by decide)]
    exact pySplit_pyJoin ';' _ hmapne hB
  have hbuild := buildDict_mkFields kvs [] hA
  have hmemd : ∀ p : Str × Str, p ∈ kvs.reverse ++ [] ↔ p ∈ gtfKeyVals g t x e n := by
    intro p
    rw [List.append_nil, List.mem_reverse]
    exact hperm.mem_iff
  have hg : lookupD (kvs.reverse ++ []) "gene_id".toList = g := by
    refine lookupD_unique _ _ _ ((hmemd _).mpr (by simp [gtfKeyVals])) ?_
    intro p hp hkey
    rcases hcases p ((hmemd p).mp hp) with h | h | h | h | h <;> subst h <;>
      first
      | rfl
      | (dsimp only at hkey; exact absurd hkey (by decide))
  have ht : lookupD (kvs.reverse ++ []) "transcript_id".toList = t := by
    refine lookupD_unique _ _ _ ((hmemd _).mpr (by simp [gtfKeyVals])) ?_
    intro p hp hkey
    rcases hcases p ((hmemd p).mp hp) with h | h | h | h | h <;> subst h <;>
      first
      | rfl
      | (dsimp only at hkey; exact absurd hkey (by decide))
  have he : lookupD (kvs.reverse ++ []) "exon_id".toList = e := by
    refine lookupD_unique _ _ _ ((hmemd _).mpr (by simp [gtfKeyVals])) ?_
    intro p hp hkey
    rcases hcases p ((hmemd p).mp hp) with h | h | h | h | h <;> subst h <;>
      first
      | rfl
      | (dsimp only at hkey; exact absurd hkey (by decide))
  have hn : lookupD (kvs.reverse ++ []) "gene_name".toList = n := by
    refine lookupD_unique _ _ _ ((hmemd _).mpr (by simp [gtfKeyVals])) ?_
    intro p hp hkey
    rcases hcases p ((hmemd p).mp hp) with h | h | h | h | h <;> subst h <;>
      first
      | rfl
      | (dsimp only at hkey; exact absurd hkey (by decide))
  have hxdot : lookupD (kvs.reverse ++ []) ("exon_number ".toList) = ['.'] := by
    refine lookupD_not_mem _ _ ?_
    intro p hp
    rcases hcases p ((hmemd p).mp hp) with h | h | h | h | h <;> subst h <;>
      dsimp only <;> decide
  unfold extract_annotation
  rw [hfields, hbuild]
  dsimp only
  rw [show annotation_fields.map (fun key => lookupD (kvs.reverse ++ []) key)
      = [lookupD (kvs.reverse ++ []) "gene_id".toList,
         lookupD (kvs.reverse ++ []) "transcript_id".toList,
         lookupD (kvs.reverse ++ []) ("exon_number ".toList),
         lookupD (kvs.reverse ++ []) "exon_id".toList,
         lookupD (kvs.reverse ++ []) "gene_name".toList] from rfl,
    hg, ht, hxdot, he, hn]

/-- Witness for `projection_completeness_amended`: the five keys in
reversed order still project canonically, with `.` for exon_number. -/
theorem projection_completeness_amended_witness :
    extract_annotation (mkAttrString
        [("gene_name".toList, "n".toList), ("exon_id".toList, "e".toList),
         ("exon_number".toList, "7".toList), ("transcript_id".toList, "t".toList),
         ("gene_id".toList, "g".toList)])
      = .ok (pyJoin ['\t'] ["g".toList, "t".toList, ['.'], "e".toList, "n".toList]) :=
  projection_completeness_amended "g".toList "t".toList "7".toList "e".toList "n".toList
    _ (by decide) (by decide)

end DFCI
